import Mathlib

/-!
Shallow embedding of the `size_format` crate (src/lib.rs, src/config.rs).

Magnitudes are embedded as `Nat` (exact unsigned integer arithmetic, as the
crate requires of its `BaseType`).  The `num::rational::Ratio` values used by
the crate are always of the form `n / d` with `d > 0`; since every operation
performed on them (`trunc`, `fract`, `is_integer`, multiplication by 10) is a
function of the rational's value, they are embedded as explicit
numerator/denominator pairs without normalisation (`is_integer` on `f / d`
becomes `f % d = 0`, which agrees with the reduced representation's check).
-/

namespace SizeFormat

/-- Embeds the constant `DEFAULT_PRECISION` from src/lib.rs. -/
def DEFAULT_PRECISION : Nat := 1

/-- Embeds a `PrefixType` implementation from src/config.rs: the list of
labels returned by `prefixes()` together with the constant `PREFIX_SIZE`. -/
structure PrefixCfg where
  prefixes : List String
  prefixSize : Nat

/-- Embeds `SIPrefixes` from src/config.rs. -/
def SIPrefixes : PrefixCfg :=
  ⟨["", "k", "M", "G", "T", "P", "E", "Z", "Y"], 1000⟩

/-- Embeds `BinaryPrefixes` from src/config.rs. -/
def BinaryPrefixes : PrefixCfg :=
  ⟨["", "Ki", "Mi", "Gi", "Ti", "Pi", "Ei", "Zi", "Yi"], 1024⟩

/-- Embeds the `int_log` loop from src/lib.rs: while `num >= base`, divide
`num` by `base` and count the divisions.  The extra guard `2 ≤ base` makes the
loop a terminating function; both shipped configurations use bases (1000 and
1024) that satisfy it, and for `base ≤ 1` the Rust loop would not terminate
(or would divide by zero), so no claim concerns that case. -/
def int_log (num base : Nat) : Nat :=
  if 2 ≤ base ∧ base ≤ num then int_log (num / base) base + 1 else 0
termination_by num
decreasing_by
  rename_i h
  exact Nat.div_lt_self (by omega) (by omega)

/-- Embeds the `divisions` computation in `<SizeFormatter as Display>::fmt`
(src/lib.rs line 176): `cmp::min(int_log(num, prefix_size), max_prefix)` with
`max_prefix = prefixes().len() - 1`. -/
def tierOf (P : PrefixCfg) (num : Nat) : Nat :=
  min (int_log num P.prefixSize) (P.prefixes.length - 1)

/-- Embeds the precision cap in `<SizeFormatter as Display>::fmt`
(src/lib.rs line 179): `cmp::min(precision, divisions * 3)`. -/
def effPrec (P : PrefixCfg) (num : Nat) (precision : Nat) : Nat :=
  min precision (tierOf P num * 3)

/-- Embeds the fractional-digit loop of `<FormatRatio as Display>::fmt`
(src/lib.rs lines 253-263).  The running fraction `frac` has value `f / d`;
per position, if `frac.is_integer()` (`f % d = 0`) a literal `0` is written,
otherwise `frac` is multiplied by 10, the truncated part `10 * f / d` is
written and the fraction becomes the new fractional part `(10 * f % d) / d`. -/
def fracDigits (d : Nat) : Nat → Nat → List Nat
  | _, 0 => []
  | f, p + 1 =>
    if f % d = 0 then 0 :: fracDigits d f p
    else (10 * f / d) :: fracDigits d (10 * f % d) p

/-- Digit-to-character conversion used by Rust's decimal `Display`. -/
def digitChar (d : Nat) : Char := Char.ofNat (48 + d)

/-- Decimal digits of a natural number, least significant first (empty for 0):
the digit stream produced by Rust's decimal `Display` for unsigned integers. -/
def natDigitsRev (n : Nat) : List Nat :=
  if n = 0 then [] else n % 10 :: natDigitsRev (n / 10)
termination_by n
decreasing_by
  rename_i h
  exact Nat.div_lt_self (by omega) (by omega)

/-- Embeds Rust's decimal rendering of an unsigned integer (`write!("{}", n)`):
most-significant digit first, a single "0" for zero, no leading zeros. -/
def natStr (n : Nat) : String :=
  if n = 0 then "0" else String.mk (((natDigitsRev n).reverse).map digitChar)

/-- Embeds `<FormatRatio as Display>::fmt` (src/lib.rs lines 245-267) on the
ratio `n / d`: write the truncated integer part `n / d`, then, if the
precision (defaulting to `DEFAULT_PRECISION`) is positive, the separator
followed by exactly `precision` fractional digits. -/
def formatRatioStr (sep : Char) (n d : Nat) (fPrecision : Option Nat) : String :=
  let precision := fPrecision.getD DEFAULT_PRECISION
  natStr (n / d) ++
    (if 0 < precision then
      String.mk (sep :: (fracDigits d (n % d) precision).map digitChar)
    else "")

/-- Embeds `<SizeFormatter as Display>::fmt` (src/lib.rs lines 169-192):
resolve the precision (defaulting to `DEFAULT_PRECISION`), select the tier,
cap the precision, build the scaled ratio `num / prefixSize ^ tier`, render it
and append the tier's label. -/
def sizeFormat (P : PrefixCfg) (sep : Char) (num : Nat) (fPrecision : Option Nat) :
    String :=
  let precision := fPrecision.getD DEFAULT_PRECISION
  let divisions := tierOf P num
  formatRatioStr sep num (P.prefixSize ^ divisions) (some (effPrec P num precision)) ++
    (P.prefixes.getD divisions "")

/-- Embeds `BaseType::from_u32` for a bounded unsigned base type with maximal
value `baseMax`: the conversion succeeds exactly when the value fits. -/
def from_u32 (baseMax v : Nat) : Option Nat :=
  if v ≤ baseMax then some v else none

/-- Value of a most-significant-first fractional digit list, read as the
integer formed by its digits. -/
def digitsToNat (L : List Nat) : Nat := L.foldl (fun a x => 10 * a + x) 0

/-- Embeds the state held by a `SizeFormatter` value (its `num` field). -/
structure FormatterState where
  num : Nat

/-- Embeds one call to `<SizeFormatter as Display>::fmt`, which takes `&self`:
it returns the produced string together with the (unchanged) formatter. -/
def fmtCall (P : PrefixCfg) (sep : Char) (st : FormatterState)
    (fPrecision : Option Nat) : String × FormatterState :=
  (sizeFormat P sep st.num fPrecision, st)

/-- Wrapping subtraction of 1 on a 64-bit `usize`, as Rust release builds
compute `prefixes().len() - 1` (src/lib.rs line 170) for an empty table. -/
def usizeWrapSub1 (n : Nat) : Nat := (n + (2 ^ 64 - 1)) % 2 ^ 64

/-- Embeds the `int_log` loop from src/lib.rs lines 201-208 with an explicit
iteration budget, making termination of the source loop expressible: the
result is `some divisions` if the loop guard `num >= base` fails within
`fuel` iterations, and `none` if the loop is still running after `fuel`
iterations — so the source loop terminates on an input exactly when some
budget returns `some`.  No guard on `base` is added here.  (For `base = 0`
the source's first iteration panics on division by zero; this function is
only used to settle claims at `base = 1`, where the source loop genuinely
runs forever, and at `base ≥ 2`, where each `some` answer reflects the
finitely many iterations the source executes.) -/
def int_log_fuel : Nat → Nat → Nat → Option Nat
  | 0, _, _ => none
  | fuel + 1, num, base =>
    if base ≤ num then (int_log_fuel fuel (num / base) base).map (fun k => k + 1)
    else some 0

theorem int_log_step {num base : Nat} (hb : 2 ≤ base) (h : base ≤ num) :
    int_log num base = int_log (num / base) base + 1 := by
  rw [int_log]
  simp [hb, h]

theorem int_log_zero {num base : Nat} (h : num < base) : int_log num base = 0 := by
  rw [int_log]
  simp
  omega

theorem int_log_zero_of_small_base {num base : Nat} (h : base < 2) :
    int_log num base = 0 := by
  rw [int_log]
  simp
  omega

theorem int_log_lt_pow {base : Nat} (hb : 2 ≤ base) :
    ∀ num : Nat, num < base ^ (int_log num base + 1) := by
  intro num
  induction num using Nat.strong_induction_on with
  | _ n ih =>
    by_cases h : base ≤ n
    · have hn : 0 < n := by omega
      have hdiv : n / base < n := Nat.div_lt_self hn (by omega)
      have ih2 := ih (n / base) hdiv
      rw [int_log_step hb h]
      have h3 : n < base * (n / base + 1) := by
        have hmod := Nat.div_add_mod n base
        have hlt : n % base < base := Nat.mod_lt n (by omega)
        calc n = base * (n / base) + n % base := hmod.symm
          _ < base * (n / base) + base := by omega
          _ = base * (n / base + 1) := by ring
      calc n < base * (n / base + 1) := h3
        _ ≤ base * base ^ (int_log (n / base) base + 1) :=
            Nat.mul_le_mul_left base ih2
        _ = base ^ (int_log (n / base) base + 1 + 1) := (pow_succ' base _).symm
    · rw [int_log_zero (by omega)]
      have : n < base := by omega
      simpa using this

theorem pow_int_log_le {base : Nat} (hb : 2 ≤ base) :
    ∀ num : Nat, num ≠ 0 → base ^ int_log num base ≤ num := by
  intro num
  induction num using Nat.strong_induction_on with
  | _ n ih =>
    intro hn
    by_cases h : base ≤ n
    · have hdiv : n / base < n := Nat.div_lt_self (by omega) (by omega)
      have hq : n / base ≠ 0 := by
        have : 1 ≤ n / base := (Nat.one_le_div_iff (by omega)).mpr h
        omega
      have ih2 := ih (n / base) hdiv hq
      rw [int_log_step hb h]
      calc base ^ (int_log (n / base) base + 1)
          = base * base ^ int_log (n / base) base := pow_succ' base _
        _ ≤ base * (n / base) := Nat.mul_le_mul_left base ih2
        _ ≤ n := by
            have := Nat.div_mul_le_self n base
            calc base * (n / base) = n / base * base := Nat.mul_comm _ _
              _ ≤ n := this
    · rw [int_log_zero (by omega)]
      simpa using Nat.one_le_iff_ne_zero.mpr hn

theorem int_log_unique {num base k : Nat} (hb : 2 ≤ base)
    (h1 : base ^ k ≤ num) (h2 : num < base ^ (k + 1)) : int_log num base = k := by
  have hn : num ≠ 0 := by
    have : 1 ≤ base ^ k := Nat.one_le_pow _ _ (by omega)
    omega
  have ha := int_log_lt_pow hb num
  have hc := pow_int_log_le hb num hn
  by_contra hne
  rcases Nat.lt_or_ge (int_log num base) k with hlt | hge
  · have : base ^ (int_log num base + 1) ≤ base ^ k :=
      Nat.pow_le_pow_right (by omega) (by omega)
    omega
  · have hgt : k < int_log num base := by omega
    have : base ^ (k + 1) ≤ base ^ int_log num base :=
      Nat.pow_le_pow_right (by omega) (by omega)
    omega

theorem int_log_eq_natLog {num base : Nat} (hb : 2 ≤ base) :
    int_log num base = Nat.log base num := by
  by_cases hn : num = 0
  · subst hn
    rw [int_log_zero (by omega)]
    simp
  · exact (Nat.log_eq_of_pow_le_of_lt_pow (pow_int_log_le hb num hn)
      (int_log_lt_pow hb num)).symm

theorem le_int_log_of_pow_le {num base k : Nat} (hb : 2 ≤ base)
    (h : base ^ k ≤ num) : k ≤ int_log num base := by
  by_contra hlt
  have h1 : base ^ (int_log num base + 1) ≤ base ^ k :=
    Nat.pow_le_pow_right (by omega) (by omega)
  have h2 := int_log_lt_pow hb num
  omega

theorem int_log_fuel_one : ∀ fuel : Nat, int_log_fuel fuel 1 1 = none := by
  intro fuel
  induction fuel with
  | zero => rfl
  | succ fuel ih =>
    have hstep : int_log_fuel (fuel + 1) 1 1 =
        if 1 ≤ 1 then (int_log_fuel fuel (1 / 1) 1).map (fun k => k + 1)
        else some 0 := rfl
    rw [hstep, if_pos (by omega)]
    rw [show (1 : Nat) / 1 = 1 from rfl, ih]
    rfl

theorem int_log_fuel_correct {base : Nat} (hb : 2 ≤ base) :
    ∀ fuel num : Nat, num < fuel →
      int_log_fuel fuel num base = some (int_log num base) := by
  intro fuel
  induction fuel with
  | zero =>
    intro num h
    exact absurd h (Nat.not_lt_zero num)
  | succ fuel ih =>
    intro num h
    have hstep : int_log_fuel (fuel + 1) num base =
        if base ≤ num then (int_log_fuel fuel (num / base) base).map (fun k => k + 1)
        else some 0 := rfl
    rw [hstep]
    by_cases hg : base ≤ num
    · rw [if_pos hg]
      have hlt : num / base < num := Nat.div_lt_self (by omega) (by omega)
      rw [ih (num / base) (by omega)]
      rw [int_log_step hb hg]
      rfl
    · rw [if_neg hg]
      rw [int_log_zero (by omega)]

theorem denom_pos (P : PrefixCfg) (num : Nat) : 0 < P.prefixSize ^ tierOf P num := by
  by_cases hb : 2 ≤ P.prefixSize
  · exact Nat.pos_pow_of_pos _ (by omega)
  · unfold tierOf
    rw [int_log_zero_of_small_base (by omega)]
    simp

theorem fracDigits_length (d : Nat) : ∀ p f, (fracDigits d f p).length = p := by
  intro p
  induction p with
  | zero => intro f; rfl
  | succ p ih =>
    intro f
    unfold fracDigits
    by_cases h : f % d = 0
    · simp [h, ih]
    · simp [h, ih]

theorem fracDigits_lt_ten {d : Nat} (hd : 0 < d) :
    ∀ p f, f < d → ∀ x ∈ fracDigits d f p, x < 10 := by
  intro p
  induction p with
  | zero => intro f _ x hx; simp [fracDigits] at hx
  | succ p ih =>
    intro f hf x hx
    unfold fracDigits at hx
    by_cases h : f % d = 0
    · simp [h] at hx
      rcases hx with hx | hx
      · omega
      · exact ih f hf x hx
    · simp [h] at hx
      rcases hx with hx | hx
      · have : 10 * f / d < 10 := by
          apply Nat.div_lt_of_lt_mul
          omega
        omega
      · exact ih (10 * f % d) (Nat.mod_lt _ hd) x hx

theorem fracDigits_succ (d : Nat) :
    ∀ p f, ∃ x, fracDigits d f (p + 1) = fracDigits d f p ++ [x] := by
  intro p
  induction p with
  | zero =>
    intro f
    by_cases h : f % d = 0
    · exact ⟨0, by simp [fracDigits, h]⟩
    · exact ⟨10 * f / d, by simp [fracDigits, h]⟩
  | succ p ih =>
    intro f
    by_cases h : f % d = 0
    · obtain ⟨x, hx⟩ := ih f
      refine ⟨x, ?_⟩
      rw [show p + 1 + 1 = (p + 1) + 1 from rfl]
      unfold fracDigits
      simp [h, hx]
    · obtain ⟨x, hx⟩ := ih (10 * f % d)
      refine ⟨x, ?_⟩
      rw [show p + 1 + 1 = (p + 1) + 1 from rfl]
      unfold fracDigits
      simp [h, hx]

theorem fracDigits_of_dvd (d : Nat) : ∀ p f, f % d = 0 →
    fracDigits d f p = List.replicate p 0 := by
  intro p
  induction p with
  | zero => intro f _; rfl
  | succ p ih =>
    intro f h
    unfold fracDigits
    simp [h, ih f h, List.replicate_succ]

theorem digitsToNat_nil : digitsToNat [] = 0 := rfl

theorem digitsToNat_replicate (p : Nat) : digitsToNat (List.replicate p 0) = 0 := by
  induction p with
  | zero => rfl
  | succ p ih =>
    rw [List.replicate_succ]
    unfold digitsToNat at ih ⊢
    rw [List.foldl_cons]
    simpa using ih

theorem foldl_digits_init (L : List Nat) :
    ∀ a, L.foldl (fun a x => 10 * a + x) a = a * 10 ^ L.length + digitsToNat L := by
  induction L with
  | nil => intro a; simp [digitsToNat]
  | cons y t ih =>
    intro a
    simp only [List.foldl_cons, List.length_cons, digitsToNat]
    rw [ih (10 * a + y), ih (10 * 0 + y)]
    ring

theorem fracDigits_val {d : Nat} (hd : 0 < d) :
    ∀ p f, f < d → digitsToNat (fracDigits d f p) = f * 10 ^ p / d := by
  intro p
  induction p with
  | zero =>
    intro f hf
    simp [fracDigits, digitsToNat, Nat.div_eq_of_lt hf]
  | succ p ih =>
    intro f hf
    by_cases h : f % d = 0
    · have hf0 : f = 0 := by
        rw [Nat.mod_eq_of_lt hf] at h
        exact h
      subst hf0
      rw [fracDigits_of_dvd d (p + 1) 0 (by simp)]
      rw [digitsToNat_replicate]
      simp
    · have hstep : fracDigits d f (p + 1) =
          if f % d = 0 then 0 :: fracDigits d f p
          else 10 * f / d :: fracDigits d (10 * f % d) p := rfl
      rw [hstep, if_neg h]
      unfold digitsToNat
      rw [List.foldl_cons]
      rw [foldl_digits_init]
      rw [fracDigits_length]
      rw [ih (10 * f % d) (Nat.mod_lt _ hd)]
      have hsplit : 10 * f = d * (10 * f / d) + 10 * f % d := (Nat.div_add_mod _ _).symm
      have hinit : (10 * 0 + 10 * f / d : Nat) = 10 * f / d := by omega
      rw [hinit]
      calc 10 * f / d * 10 ^ p + 10 * f % d * 10 ^ p / d
          = (d * (10 * f / d * 10 ^ p) + 10 * f % d * 10 ^ p) / d := by
            rw [Nat.mul_add_div hd]
        _ = (10 * f * 10 ^ p) / d := by
            congr 1
            calc d * (10 * f / d * 10 ^ p) + 10 * f % d * 10 ^ p
                = (d * (10 * f / d) + 10 * f % d) * 10 ^ p := by ring
              _ = 10 * f * 10 ^ p := by rw [← hsplit]
        _ = f * 10 ^ (p + 1) / d := by
            congr 1
            ring

theorem natDigitsRev_cons {n : Nat} (h : n ≠ 0) :
    natDigitsRev n = n % 10 :: natDigitsRev (n / 10) := by
  rw [natDigitsRev]
  simp [h]

theorem natDigitsRev_nil : natDigitsRev 0 = [] := by
  rw [natDigitsRev]
  simp

theorem natDigitsRev_lt_ten : ∀ n, ∀ x ∈ natDigitsRev n, x < 10 := by
  intro n
  induction n using Nat.strong_induction_on with
  | _ n ih =>
    intro x hx
    by_cases hn : n = 0
    · subst hn
      rw [natDigitsRev_nil] at hx
      simp at hx
    · rw [natDigitsRev_cons hn] at hx
      simp at hx
      rcases hx with hx | hx
      · omega
      · exact ih (n / 10) (Nat.div_lt_self (by omega) (by omega)) x hx

theorem natDigitsRev_snoc : ∀ n, n ≠ 0 →
    ∃ L x, natDigitsRev n = L ++ [x] ∧ x ≠ 0 ∧ x < 10 := by
  intro n
  induction n using Nat.strong_induction_on with
  | _ n ih =>
    intro hn
    by_cases hsmall : n < 10
    · refine ⟨[], n % 10, ?_, ?_, ?_⟩
      · rw [natDigitsRev_cons hn]
        rw [show n / 10 = 0 from Nat.div_eq_of_lt hsmall]
        rw [natDigitsRev_nil]
        simp
      · rw [Nat.mod_eq_of_lt hsmall]
        exact hn
      · exact Nat.mod_lt _ (by omega)
    · have hq : n / 10 ≠ 0 := by
        have : 10 ≤ n := by omega
        have : 1 ≤ n / 10 := (Nat.one_le_div_iff (by omega)).mpr this
        omega
      obtain ⟨L, x, hL, hx0, hx10⟩ :=
        ih (n / 10) (Nat.div_lt_self (by omega) (by omega)) hq
      refine ⟨n % 10 :: L, x, ?_, hx0, hx10⟩
      rw [natDigitsRev_cons hn, hL]
      simp

theorem digitChar_ne_zero_char : ∀ x : Nat, x ≠ 0 → x < 10 → digitChar x ≠ '0' := by
  intro x h0 h10
  interval_cases x
  all_goals first
    | exact absurd rfl h0
    | decide

theorem natStr_zero : natStr 0 = "0" := rfl

theorem natStr_spec : ∀ n : Nat, ∃ ids : List Nat,
    natStr n = String.mk (ids.map digitChar) ∧ ids ≠ [] ∧ (∀ x ∈ ids, x < 10) ∧
    (n = 0 → ids = [0]) ∧ (n ≠ 0 → ids.head? ≠ some 0) := by
  intro n
  by_cases hn : n = 0
  · subst hn
    refine ⟨[0], ?_, by simp, by simp, fun _ => rfl, fun h => absurd rfl h⟩
    rfl
  · refine ⟨(natDigitsRev n).reverse, ?_, ?_, ?_, fun h => absurd h hn, ?_⟩
    · unfold natStr
      simp [hn]
    · obtain ⟨L, x, hL, _, _⟩ := natDigitsRev_snoc n hn
      rw [hL]
      simp
    · intro x hx
      rw [List.mem_reverse] at hx
      exact natDigitsRev_lt_ten n x hx
    · intro _
      obtain ⟨L, x, hL, hx0, _⟩ := natDigitsRev_snoc n hn
      rw [hL]
      simp [hx0]

theorem trunc_val {d : Nat} (hd : 0 < d) (n p : Nat) :
    n / d * 10 ^ p + digitsToNat (fracDigits d (n % d) p) = n * 10 ^ p / d := by
  rw [fracDigits_val hd p (n % d) (Nat.mod_lt _ hd)]
  have hsplit : n = d * (n / d) + n % d := (Nat.div_add_mod _ _).symm
  calc n / d * 10 ^ p + n % d * 10 ^ p / d
      = (d * (n / d * 10 ^ p) + n % d * 10 ^ p) / d := by rw [Nat.mul_add_div hd]
    _ = n * 10 ^ p / d := by
        congr 1
        calc d * (n / d * 10 ^ p) + n % d * 10 ^ p
            = (d * (n / d) + n % d) * 10 ^ p := by ring
          _ = n * 10 ^ p := by rw [← hsplit]

theorem sizeFormat_decomp (P : PrefixCfg) (sep : Char) (num : Nat) (fp : Option Nat) :
    sizeFormat P sep num fp =
      (natStr (num / P.prefixSize ^ tierOf P num) ++
        (if 0 < effPrec P num (fp.getD DEFAULT_PRECISION) then
          String.mk (sep :: (fracDigits (P.prefixSize ^ tierOf P num)
            (num % P.prefixSize ^ tierOf P num)
            (effPrec P num (fp.getD DEFAULT_PRECISION))).map digitChar)
        else "")) ++ P.prefixes.getD (tierOf P num) "" := rfl

/-- Claim C1: for every magnitude `m` and requested precision `p`, the number
of fractional digits in the formatted output is exactly `min p (3 * tier m)`,
where `tier m` is the selected prefix tier; in particular, with SI prefixes the
magnitude 1111 formats at precisions 0..4 as "1k", "1.1k", "1.11k", "1.111k"
and again "1.111k" (precision 4 is capped to 3). -/
theorem fractional_digit_count :
    (∀ (P : PrefixCfg) (sep : Char) (num p : Nat), ∃ ds : List Nat,
      ds.length = min p (3 * tierOf P num) ∧
      sizeFormat P sep num (some p) =
        (natStr (num / P.prefixSize ^ tierOf P num) ++
          (if 0 < ds.length then String.mk (sep :: ds.map digitChar) else "")) ++
          P.prefixes.getD (tierOf P num) "") ∧
    sizeFormat SIPrefixes '.' 1111 (some 0) = "1k" ∧
    sizeFormat SIPrefixes '.' 1111 (some 1) = "1.1k" ∧
    sizeFormat SIPrefixes '.' 1111 (some 2) = "1.11k" ∧
    sizeFormat SIPrefixes '.' 1111 (some 3) = "1.111k" ∧
    sizeFormat SIPrefixes '.' 1111 (some 4) = "1.111k" := by
  have h1 : int_log 1111 1000 = 1 := by norm_num [int_log_step, int_log_zero]
  refine ⟨?_, ?_, ?_, ?_, ?_, ?_⟩
  · intro P sep num p
    refine ⟨fracDigits (P.prefixSize ^ tierOf P num)
      (num % P.prefixSize ^ tierOf P num) (effPrec P num p), ?_, ?_⟩
    · rw [fracDigits_length]
      unfold effPrec
      omega
    · rw [sizeFormat_decomp]
      rw [fracDigits_length]
      simp only [Option.getD_some]
  all_goals
    simp only [sizeFormat, tierOf, effPrec, SIPrefixes, h1]
    try norm_num
    try simp only [formatRatioStr, DEFAULT_PRECISION]
    try norm_num [fracDigits]
    try norm_num [natStr, natDigitsRev_cons, natDigitsRev_nil, digitChar]
    try decide

/-- Claim C2: the rendered decimal string is the exact truncation toward zero
of the scaled ratio `n / d`: the integer part is the truncating division
`n / d`, and the `p` emitted fractional digits, read as a number, make the
whole output equal `n * 10 ^ p / d` (exact truncation, never rounding); once
the remainder is zero only zeros are emitted; with binary prefixes at
precision 2 the magnitude 65535 renders as "63.99Ki". -/
theorem exact_truncation :
    (∀ n d p : Nat, 0 < d →
      n / d * 10 ^ p + digitsToNat (fracDigits d (n % d) p) = n * 10 ^ p / d) ∧
    (∀ d f p : Nat, f % d = 0 → fracDigits d f p = List.replicate p 0) ∧
    sizeFormat BinaryPrefixes '.' 65535 (some 2) = "63.99Ki" := by
  refine ⟨fun n d p hd => trunc_val hd n p,
    fun d f p h => fracDigits_of_dvd d p f h, ?_⟩
  have h1 : int_log 65535 1024 = 1 := by norm_num [int_log_step, int_log_zero]
  simp only [sizeFormat, tierOf, effPrec, BinaryPrefixes, h1]
  try norm_num
  try simp only [formatRatioStr, DEFAULT_PRECISION]
  try norm_num [fracDigits]
  try norm_num [natStr, natDigitsRev_cons, natDigitsRev_nil, digitChar]
  try decide

/-- Witness for the hypothesis of `exact_truncation`, at `n = 65535`,
`d = 1024`, `p = 2`. -/
theorem exact_truncation_witness :
    0 < 1024 ∧
      65535 / 1024 * 10 ^ 2 + digitsToNat (fracDigits 1024 (65535 % 1024) 2) =
        65535 * 10 ^ 2 / 1024 :=
  ⟨by decide, exact_truncation.1 65535 1024 2 (by decide)⟩

/-- Claim C3: tier selection computes the base-multiplier floor logarithm by
repeated integer division (so `base ^ tier ≤ num < base ^ (tier + 1)` for
nonzero magnitudes), capped at `max_tier = table_length - 1`; for magnitude 0
the tier is 0 and the SI output is "0" with no separator, no fractional part
and no unit label. -/
theorem tier_selection :
    (∀ num base : Nat, 2 ≤ base → num ≠ 0 →
      base ^ int_log num base ≤ num ∧ num < base ^ (int_log num base + 1)) ∧
    (∀ base : Nat, int_log 0 base = 0) ∧
    (∀ (P : PrefixCfg) (num : Nat),
      tierOf P num = min (int_log num P.prefixSize) (P.prefixes.length - 1)) ∧
    (∀ P : PrefixCfg, tierOf P 0 = 0) ∧
    sizeFormat SIPrefixes '.' 0 none = "0" := by
  have hz : ∀ base : Nat, int_log 0 base = 0 := by
    intro base
    by_cases h : 2 ≤ base
    · exact int_log_zero (by omega)
    · exact int_log_zero_of_small_base (by omega)
  refine ⟨fun num base hb hn => ⟨pow_int_log_le hb num hn, int_log_lt_pow hb num⟩,
    hz, fun P num => rfl, ?_, ?_⟩
  · intro P
    unfold tierOf
    rw [hz]
    simp
  · simp only [sizeFormat, tierOf, effPrec, SIPrefixes, hz]
    try norm_num
    try simp only [formatRatioStr, DEFAULT_PRECISION]
    try norm_num [fracDigits]
    try norm_num [natStr, natDigitsRev_cons, natDigitsRev_nil, digitChar]
    try decide

/-- Witness for the hypotheses of `tier_selection`, at `num = 1111`,
`base = 1000`. -/
theorem tier_selection_witness :
    (2 ≤ 1000 ∧ (1111 : Nat) ≠ 0) ∧
      1000 ^ int_log 1111 1000 ≤ 1111 ∧ 1111 < 1000 ^ (int_log 1111 1000 + 1) :=
  ⟨⟨by decide, by decide⟩, tier_selection.1 1111 1000 (by decide) (by decide)⟩

theorem strMk_append (a b : List Char) :
    String.mk (a ++ b) = String.mk a ++ String.mk b := rfl

theorem str_append_assoc (a b c : String) : a ++ b ++ c = a ++ (b ++ c) := by
  rcases a with ⟨la⟩
  rcases b with ⟨lb⟩
  rcases c with ⟨lc⟩
  show String.mk (la ++ lb ++ lc) = String.mk (la ++ (lb ++ lc))
  rw [List.append_assoc]

/-- Counterexample to claim C5 as stated: with SI prefixes, formatting the
magnitude 1111 at precision 4 gives "1.111k"; removing the string's last
fractional digit (the character before the label "k") gives "1.11k", which
differs from formatting at precision 3 (also "1.111k"), because precision is
capped at `3 * tier = 3`. -/
theorem truncation_law_cex :
    ¬ ((sizeFormat SIPrefixes '.' 1111 (some 4)).dropRight 2 ++ "k" =
        sizeFormat SIPrefixes '.' 1111 (some 3)) := by
  have h1 : int_log 1111 1000 = 1 := by norm_num [int_log_step, int_log_zero]
  have e4 : sizeFormat SIPrefixes '.' 1111 (some 4) = "1.111k" := by
    simp only [sizeFormat, tierOf, effPrec, SIPrefixes, h1]
    try norm_num
    try simp only [formatRatioStr, DEFAULT_PRECISION]
    try norm_num [fracDigits]
    try norm_num [natStr, natDigitsRev_cons, natDigitsRev_nil, digitChar]
    try decide
  have e3 : sizeFormat SIPrefixes '.' 1111 (some 3) = "1.111k" := by
    simp only [sizeFormat, tierOf, effPrec, SIPrefixes, h1]
    try norm_num
    try simp only [formatRatioStr, DEFAULT_PRECISION]
    try norm_num [fracDigits]
    try norm_num [natStr, natDigitsRev_cons, natDigitsRev_nil, digitChar]
    try decide
  rw [e4, e3]
  decide

/-- Claim C5 as amended: for every magnitude and every precision `p` with
`2 ≤ p ≤ 3 * tier`, formatting at precision `p` equals formatting at
precision `p - 1` with exactly one extra character (the last fractional
digit) inserted just before the prefix label; no rounding occurs.  The bound
`p ≤ 3 * tier` is forced by the precision cap and `2 ≤ p` by the separator,
which is only present at positive effective precision. -/
theorem truncation_law_amended :
    ∀ (P : PrefixCfg) (sep : Char) (num p : Nat), 2 ≤ p → p ≤ 3 * tierOf P num →
      ∃ (s : String) (c : Char),
        sizeFormat P sep num (some p) =
          (s ++ String.mk [c]) ++ P.prefixes.getD (tierOf P num) "" ∧
        sizeFormat P sep num (some (p - 1)) =
          s ++ P.prefixes.getD (tierOf P num) "" := by
  intro P sep num p hp2 hpcap
  have heff : effPrec P num p = p := by
    unfold effPrec
    omega
  have heff' : effPrec P num (p - 1) = p - 1 := by
    unfold effPrec
    omega
  obtain ⟨x, hx⟩ := fracDigits_succ (P.prefixSize ^ tierOf P num) (p - 1)
    (num % P.prefixSize ^ tierOf P num)
  rw [show p - 1 + 1 = p from by omega] at hx
  refine ⟨natStr (num / P.prefixSize ^ tierOf P num) ++
      String.mk (sep :: (fracDigits (P.prefixSize ^ tierOf P num)
        (num % P.prefixSize ^ tierOf P num) (p - 1)).map digitChar),
    digitChar x, ?_, ?_⟩
  · rw [sizeFormat_decomp]
    simp only [Option.getD_some]
    rw [heff, if_pos (by omega : 0 < p), hx]
    rw [List.map_append]
    congr 1
    rw [str_append_assoc, ← strMk_append]
    rfl
  · rw [sizeFormat_decomp]
    simp only [Option.getD_some]
    rw [heff', if_pos (by omega : 0 < p - 1)]

/-- Witness for the hypotheses of `truncation_law_amended`, at SI prefixes,
magnitude 1111 and precision 2. -/
theorem truncation_law_amended_witness :
    (2 ≤ 2 ∧ 2 ≤ 3 * tierOf SIPrefixes 1111) ∧
      ∃ (s : String) (c : Char),
        sizeFormat SIPrefixes '.' 1111 (some 2) =
          (s ++ String.mk [c]) ++ SIPrefixes.prefixes.getD (tierOf SIPrefixes 1111) "" ∧
        sizeFormat SIPrefixes '.' 1111 (some (2 - 1)) =
          s ++ SIPrefixes.prefixes.getD (tierOf SIPrefixes 1111) "" := by
  have h1 : int_log 1111 1000 = 1 := by norm_num [int_log_step, int_log_zero]
  have ht : tierOf SIPrefixes 1111 = 1 := by
    simp [tierOf, SIPrefixes, h1]
  exact ⟨⟨by norm_num, by rw [ht]; norm_num⟩,
    truncation_law_amended SIPrefixes '.' 1111 2 (by norm_num) (by rw [ht]; norm_num)⟩

/-- Counterexample to claim C6 as stated: with SI prefixes at default
precision, the magnitude `10 ^ 33` does not format as "1000000.0Y" — the
scaled integer part is `10 ^ 33 / 1000 ^ 8 = 10 ^ 9`, so the output is
"1000000000.0Y". -/
theorem tier_saturation_cex :
    sizeFormat SIPrefixes '.' (10 ^ 33) none ≠ "1000000.0Y" := by
  have h1 : int_log (10 ^ 33) 1000 = 11 :=
    int_log_unique (by norm_num) (by norm_num) (by norm_num)
  have e : sizeFormat SIPrefixes '.' (10 ^ 33) none = "1000000000.0Y" := by
    simp only [sizeFormat, tierOf, effPrec, SIPrefixes, h1]
    try norm_num
    try simp only [formatRatioStr, DEFAULT_PRECISION]
    try norm_num [fracDigits]
    try norm_num [natStr, natDigitsRev_cons, natDigitsRev_nil, digitChar]
    try decide
  rw [e]
  decide

/-- Claim C6 as amended: for every magnitude at or beyond the range of the
largest prefix tier, the selected tier stays at `max_tier` and the integer
part grows without bound rather than erroring; with SI prefixes, magnitude
`10 ^ 27` formats as "1000.0Y" and magnitude `10 ^ 33` as "1000000000.0Y"
(at default precision; the claim's "1000000.0Y" for `10 ^ 33` is what
magnitude `10 ^ 30` produces). -/
theorem tier_saturation :
    (∀ (P : PrefixCfg) (num : Nat), 1 ≤ P.prefixes.length → 2 ≤ P.prefixSize →
      P.prefixSize ^ (P.prefixes.length - 1) ≤ num →
        tierOf P num = P.prefixes.length - 1) ∧
    (∀ (P : PrefixCfg) (M : Nat), 1 ≤ P.prefixes.length → 2 ≤ P.prefixSize →
      ∃ num, P.prefixSize ^ (P.prefixes.length - 1) ≤ num ∧
        M ≤ num / P.prefixSize ^ tierOf P num) ∧
    sizeFormat SIPrefixes '.' (10 ^ 27) none = "1000.0Y" ∧
    sizeFormat SIPrefixes '.' (10 ^ 33) none = "1000000000.0Y" := by
  have hsat : ∀ (P : PrefixCfg) (num : Nat), 1 ≤ P.prefixes.length →
      2 ≤ P.prefixSize → P.prefixSize ^ (P.prefixes.length - 1) ≤ num →
        tierOf P num = P.prefixes.length - 1 := by
    intro P num hlen hb hpow
    have hk := le_int_log_of_pow_le hb hpow
    unfold tierOf
    omega
  refine ⟨hsat, ?_, ?_, ?_⟩
  · intro P M hlen hb
    refine ⟨P.prefixSize ^ (P.prefixes.length - 1) * (M + 1), ?_, ?_⟩
    · calc P.prefixSize ^ (P.prefixes.length - 1)
          = P.prefixSize ^ (P.prefixes.length - 1) * 1 := (Nat.mul_one _).symm
        _ ≤ P.prefixSize ^ (P.prefixes.length - 1) * (M + 1) :=
            Nat.mul_le_mul_left _ (by omega)
    · have hpos : 0 < P.prefixSize ^ (P.prefixes.length - 1) :=
        Nat.pos_pow_of_pos _ (by omega)
      rw [hsat P _ hlen hb (by
        calc P.prefixSize ^ (P.prefixes.length - 1)
            = P.prefixSize ^ (P.prefixes.length - 1) * 1 := (Nat.mul_one _).symm
          _ ≤ P.prefixSize ^ (P.prefixes.length - 1) * (M + 1) :=
              Nat.mul_le_mul_left _ (by omega))]
      rw [Nat.mul_div_cancel_left _ hpos]
      omega
  · have h1 : int_log (10 ^ 27) 1000 = 9 :=
      int_log_unique (by norm_num) (by norm_num) (by norm_num)
    simp only [sizeFormat, tierOf, effPrec, SIPrefixes, h1]
    try norm_num
    try simp only [formatRatioStr, DEFAULT_PRECISION]
    try norm_num [fracDigits]
    try norm_num [natStr, natDigitsRev_cons, natDigitsRev_nil, digitChar]
    try decide
  · have h1 : int_log (10 ^ 33) 1000 = 11 :=
      int_log_unique (by norm_num) (by norm_num) (by norm_num)
    simp only [sizeFormat, tierOf, effPrec, SIPrefixes, h1]
    try norm_num
    try simp only [formatRatioStr, DEFAULT_PRECISION]
    try norm_num [fracDigits]
    try norm_num [natStr, natDigitsRev_cons, natDigitsRev_nil, digitChar]
    try decide

/-- Witness for the hypotheses of `tier_saturation`, at SI prefixes and
magnitude `10 ^ 27` (which is at least `1000 ^ 8`). -/
theorem tier_saturation_witness :
    (1 ≤ SIPrefixes.prefixes.length ∧ 2 ≤ SIPrefixes.prefixSize ∧
      SIPrefixes.prefixSize ^ (SIPrefixes.prefixes.length - 1) ≤ 10 ^ 27) ∧
      tierOf SIPrefixes (10 ^ 27) = SIPrefixes.prefixes.length - 1 :=
  ⟨⟨by decide, by decide, by norm_num [SIPrefixes]⟩,
    tier_saturation.1 SIPrefixes (10 ^ 27) (by decide) (by decide)
      (by norm_num [SIPrefixes])⟩

/-- Claim C7: every output matches the grammar
`<integer-digits>[<separator><fractional-digits>]<prefix-label>`, where the
separator and fractional digits are present iff the effective precision is
positive, the integer digits carry no leading zero except for the value 0
itself (rendered "0"), and an unspecified precision defaults to 1. -/
theorem output_grammar :
    ∀ (P : PrefixCfg) (sep : Char) (num : Nat) (fp : Option Nat),
      sizeFormat P sep num none = sizeFormat P sep num (some 1) ∧
      ∃ ids fds : List Nat,
        ids ≠ [] ∧ (∀ x ∈ ids, x < 10) ∧
        (num / P.prefixSize ^ tierOf P num = 0 → ids = [0]) ∧
        (num / P.prefixSize ^ tierOf P num ≠ 0 → ids.head? ≠ some 0) ∧
        fds.length = effPrec P num (fp.getD DEFAULT_PRECISION) ∧
        (∀ x ∈ fds, x < 10) ∧
        sizeFormat P sep num fp =
          (String.mk (ids.map digitChar) ++
            (if 0 < effPrec P num (fp.getD DEFAULT_PRECISION) then
              String.mk (sep :: fds.map digitChar)
            else "")) ++ P.prefixes.getD (tierOf P num) "" := by
  intro P sep num fp
  refine ⟨rfl, ?_⟩
  obtain ⟨ids, hids, hne, hlt, hz, hnz⟩ := natStr_spec (num / P.prefixSize ^ tierOf P num)
  refine ⟨ids, fracDigits (P.prefixSize ^ tierOf P num)
    (num % P.prefixSize ^ tierOf P num) (effPrec P num (fp.getD DEFAULT_PRECISION)),
    hne, hlt, hz, hnz, fracDigits_length _ _ _, ?_, ?_⟩
  · exact fracDigits_lt_ten (denom_pos P num) _ _
      (Nat.mod_lt _ (denom_pos P num))
  · rw [sizeFormat_decomp, hids]

/-- Witness for `output_grammar`, instantiated at SI prefixes and magnitude
678 (the default-precision clause at a concrete input). -/
theorem output_grammar_witness :
    sizeFormat SIPrefixes '.' 678 none = sizeFormat SIPrefixes '.' 678 (some 1) :=
  (output_grammar SIPrefixes '.' 678 none).1

/-- Counterexample to claim C8 as stated: formatting does not terminate for
every prefix configuration.  With multiplier 1 — a configuration the
`from_u32` conversion accepts for every base type, even an 8-bit one — and
magnitude 1, the tier-selection loop of src/lib.rs lines 203-208 never exits:
its guard `num >= base` holds again after every iteration, so no iteration
budget makes it return. -/
theorem termination_cex :
    from_u32 255 1 = some 1 ∧
      ¬ ∃ fuel k : Nat, int_log_fuel fuel 1 1 = some k := by
  constructor
  · rfl
  · rintro ⟨fuel, k, hk⟩
    rw [int_log_fuel_one fuel] at hk
    exact Option.noConfusion hk

/-- Claim C8 as amended: for every prefix configuration whose multiplier is
at least 2 (in particular both shipped systems, 1000 and 1024), every
formatting operation is a bounded, terminating pure computation for every
magnitude and requested precision: the tier-selection loop exits within
`num + 1` iterations, performing exactly the base-`base` logarithm of the
magnitude many divisions (its digit count in base `base`, minus one), and the
fractional-digit loop runs at most the requested precision many steps.  The
multiplier bound is forced: with multiplier 1 the tier-selection loop never
terminates on magnitude 1. -/
theorem bounded_termination :
    (∀ num base : Nat, 2 ≤ base →
      int_log_fuel (num + 1) num base = some (int_log num base)) ∧
    (∀ num base : Nat, 2 ≤ base → int_log num base = Nat.log base num) ∧
    (∀ d f p : Nat, (fracDigits d f p).length ≤ p) ∧
    (∀ (P : PrefixCfg) (num p : Nat), effPrec P num p ≤ p) := by
  refine ⟨fun num base hb => int_log_fuel_correct hb (num + 1) num (by omega),
    fun num base hb => int_log_eq_natLog hb, ?_, ?_⟩
  · intro d f p
    rw [fracDigits_length]
  · intro P num p
    unfold effPrec
    omega

/-- Witness for the hypotheses of `bounded_termination`, at `num = 1111`,
`base = 1000`. -/
theorem bounded_termination_witness :
    2 ≤ 1000 ∧
      int_log_fuel (1111 + 1) 1111 1000 = some (int_log 1111 1000) :=
  ⟨by decide, bounded_termination.1 1111 1000 (by decide)⟩

/-- Claim C9: formatting is deterministic and leaves the formatter unchanged:
a format call on a formatter state returns a string that is a function of the
held magnitude and the requested precision only, the state after the call is
the state before it (the magnitude is never mutated), and repeated or
interleaved calls with the same precision yield the identical string. -/
theorem deterministic_immutable :
    ∀ (P : PrefixCfg) (sep : Char) (st : FormatterState) (fp fp2 : Option Nat),
      fmtCall P sep st fp = (sizeFormat P sep st.num fp, st) ∧
      (fmtCall P sep st fp).2 = st ∧
      (fmtCall P sep (fmtCall P sep st fp).2 fp).1 = (fmtCall P sep st fp).1 ∧
      (fmtCall P sep (fmtCall P sep st fp2).2 fp).1 = (fmtCall P sep st fp).1 := by
  intro P sep st fp fp2
  exact ⟨rfl, rfl, rfl, rfl⟩

/-- Claim C10: for every prefix table with at least one label, the selected
tier is a valid index into the table and the denominator
`multiplier ^ tier` never exceeds `max num 1`; the non-empty-table
precondition is required: on an empty table the `len - 1` computation wraps
around on `usize` (to `2 ^ 64 - 1`), and no tier index is below the empty
table's length. -/
theorem index_safety :
    (∀ (P : PrefixCfg) (num : Nat), 1 ≤ P.prefixes.length →
      tierOf P num < P.prefixes.length ∧
      P.prefixSize ^ tierOf P num ≤ max num 1) ∧
    usizeWrapSub1 0 = 2 ^ 64 - 1 ∧
    (∀ num base : Nat,
      ¬ min (int_log num base) (usizeWrapSub1 0) < ([] : List String).length) := by
  refine ⟨?_, by norm_num [usizeWrapSub1], ?_⟩
  · intro P num hlen
    constructor
    · unfold tierOf
      omega
    · by_cases hb : 2 ≤ P.prefixSize
      · have htle : tierOf P num ≤ int_log num P.prefixSize := by
          unfold tierOf
          omega
        have hmono : P.prefixSize ^ tierOf P num ≤
            P.prefixSize ^ int_log num P.prefixSize :=
          Nat.pow_le_pow_right (by omega) htle
        by_cases hn : num = 0
        · subst hn
          rw [int_log_zero (by omega)] at hmono
          simp at hmono
          simp [hmono]
        · have := pow_int_log_le hb num hn
          have hm : num ≤ max num 1 := Nat.le_max_left _ _
          omega
      · unfold tierOf
        rw [int_log_zero_of_small_base (by omega)]
        simp
  · intro num base
    simp

/-- Witness for the hypothesis of `index_safety`, at SI prefixes and
magnitude 1111. -/
theorem index_safety_witness :
    1 ≤ SIPrefixes.prefixes.length ∧
      (tierOf SIPrefixes 1111 < SIPrefixes.prefixes.length ∧
        SIPrefixes.prefixSize ^ tierOf SIPrefixes 1111 ≤ max 1111 1) :=
  ⟨by decide, index_safety.1 SIPrefixes 1111 (by decide)⟩

end SizeFormat
